import Mathlib

/-!
# Verification of the Basic-VS-Launcher core

Shallow embedding of the launcher's core logic:

* `src/pages/versions.rs` — semantic-version parsing and sorting
  (`parse_semver`, `sort_versions`), the catalog fetch (`fetch_versions`),
  the single-flight download supervisor (`spawn_download`, `poll_task`) and
  the worker's chunked download loop (`download_and_extract`'s read loop);
* `src/pages/instances.rs` — instance deletion (`remove_instance`);
* `src/main.rs` — instance launching (`launch_instance`);
* `src/pages/mods.rs` — fetch-ahead pagination (`ModsPage::ui`,
  `start_fetch`).

Rust strings are modelled as `List Char`, machine integers as `Nat`, the
`f32` progress fractions as exact rationals `ℚ`, filesystem and network
effects as explicit outcome parameters, and the `semver` crate's strict
`Version::parse` / `Ord` as `Semver.parse` / `Semver.cmp` below, following
the crate's documented grammar and comparison algorithm.
-/

/-! ## Generic three-way comparators -/

/-- Three-way comparison on naturals, mirroring Rust's `Ord` on integers. -/
def natCmp (a b : Nat) : Ordering :=
  if a < b then .lt else if b < a then .gt else .eq

/-- Three-way comparison of chars by scalar value, mirroring Rust's
byte/char ordering on strings (UTF-8 order agrees with scalar order). -/
def charCmp (a b : Char) : Ordering :=
  natCmp a.toNat b.toNat

/-- Lexicographic comparison of two lists with a given element comparator,
mirroring Rust's derived `Ord` on sequences. -/
def listCmp {α : Type _} (c : α → α → Ordering) : List α → List α → Ordering
  | [], [] => .eq
  | [], _ :: _ => .lt
  | _ :: _, [] => .gt
  | a :: as, b :: bs =>
    match c a b with
    | .eq => listCmp c as bs
    | o => o

/-- Comparator on pairs: first component, then second, mirroring a chain of
`Ordering::then` comparisons in Rust. -/
def pairCmp {α β : Type _} (c₁ : α → α → Ordering) (c₂ : β → β → Ordering)
    (x y : α × β) : Ordering :=
  (c₁ x.1 y.1).then (c₂ x.2 y.2)

/-- Comparator on `Option`, mirroring Rust's `Option<T> : Ord`
(`None` is less than any `Some`). -/
def optCmp {α : Type _} (c : α → α → Ordering) : Option α → Option α → Ordering
  | none, none => .eq
  | none, some _ => .lt
  | some _, none => .gt
  | some a, some b => c a b

/-- A lawful linear comparator: swap-symmetric, equality-reflecting, and
transitive in its strict part. -/
structure LawfulCmp {α : Type _} (c : α → α → Ordering) : Prop where
  swap_eq : ∀ a b, (c a b).swap = c b a
  eq_iff : ∀ a b, c a b = .eq ↔ a = b
  lt_trans : ∀ ⦃a b d⦄, c a b = .lt → c b d = .lt → c a d = .lt

/-! ## Splitting character lists

Rust's `str::split(c)` yields the (possibly empty) segments between
occurrences of `c`; on a string with no separator it yields the whole
string, and on `""` it yields `[""]`. -/

/-- Model of Rust `str::split(sep)` on a character list. -/
def splitOnChar (sep : Char) : List Char → List (List Char)
  | [] => [[]]
  | x :: xs =>
    match splitOnChar sep xs with
    | [] => [[]]
    | h :: t => if x = sep then [] :: h :: t else (x :: h) :: t

/-- Join segments with a separator (Rust `[&str]::join` / repeated
`push_str`); the inverse of `splitOnChar`. -/
def joinSep (sep : Char) : List (List Char) → List Char
  | [] => []
  | [x] => x
  | x :: y :: t => x ++ sep :: joinSep sep (y :: t)

/-- Split at the first occurrence of `sep` only: the part before it, and
(when the separator occurs) everything after it.  Mirrors Rust
`str::split_once`-style handling used when a parser consumes up to the
first separator. -/
def splitFirst (sep : Char) (l : List Char) : List Char × Option (List Char) :=
  match splitOnChar sep l with
  | [] => (l, none)
  | [x] => (x, none)
  | x :: rest => (x, some (joinSep sep rest))

/-! ## The `semver` crate: strict parsing and ordering

Model of `semver::Version::parse` (strict SemVer 2.0.0 grammar: exactly
three dot-separated numeric components without leading zeros, an optional
pre-release after the first `-`, an optional build after the first `+`)
and of the crate's `Ord for Version` (major, minor, patch, pre-release,
then build metadata; identifier lists compared per the crate's algorithm:
numeric identifiers sort below alphanumeric ones and are compared by
length then lexicographically). -/

namespace Semver

/-- A strict numeric identifier: nonempty, all ASCII digits, no leading
zero (except the single digit `0`). -/
def isStrictNumeric (l : List Char) : Bool :=
  !l.isEmpty && l.all Char.isDigit && (l == ['0'] || l.head? != some '0')

/-- Numeric value of a digit list (as read left to right). -/
def digitsVal (l : List Char) : Nat :=
  l.foldl (fun n c => n * 10 + (c.toNat - 48)) 0

/-- Parse a strictly numeric identifier. -/
def parseNumeric (l : List Char) : Option Nat :=
  if isStrictNumeric l then some (digitsVal l) else none

/-- Characters allowed in pre-release / build identifiers. -/
def isIdentChar (c : Char) : Bool :=
  c.isAlphanum || c == '-'

/-- A valid pre-release identifier: nonempty, identifier characters only,
and if fully numeric then no leading zeros. -/
def isPreIdent (l : List Char) : Bool :=
  !l.isEmpty && l.all isIdentChar &&
    (!(l.all Char.isDigit) || l == ['0'] || l.head? != some '0')

/-- A valid build identifier: nonempty, identifier characters only
(leading zeros permitted). -/
def isBuildIdent (l : List Char) : Bool :=
  !l.isEmpty && l.all isIdentChar

/-- A parsed semantic version.  Pre-release and build are kept as their
raw dot-separated identifiers, as in the `semver` crate. -/
structure Version where
  major : Nat
  minor : Nat
  patch : Nat
  pre : List (List Char)
  build : List (List Char)
deriving DecidableEq, Repr

/-- `semver::Version::parse`. -/
def parse (l : List Char) : Option Version :=
  let p1 := splitFirst '+' l
  let p2 := splitFirst '-' p1.1
  match splitOnChar '.' p2.1 with
  | [ma, mi, pa] =>
    match parseNumeric ma, parseNumeric mi, parseNumeric pa with
    | some M, some m, some p =>
      let preIds : Option (List (List Char)) :=
        match p2.2 with
        | none => some []
        | some ps =>
          let ids := splitOnChar '.' ps
          if ids.all isPreIdent then some ids else none
      let buildIds : Option (List (List Char)) :=
        match p1.2 with
        | none => some []
        | some bs =>
          let ids := splitOnChar '.' bs
          if ids.all isBuildIdent then some ids else none
      match preIds, buildIds with
      | some pre, some build => some ⟨M, m, p, pre, build⟩
      | _, _ => none
    | _, _, _ => none
  | _ => none

/-- The crate's comparison of a single identifier: two numeric identifiers
compare by length then lexicographically (numeric order, given no leading
zeros), a numeric identifier sorts below an alphanumeric one, and two
alphanumeric identifiers compare lexicographically. -/
def cmpIdent (a b : List Char) : Ordering :=
  match a.all Char.isDigit, b.all Char.isDigit with
  | true, true => (natCmp a.length b.length).then (listCmp charCmp a b)
  | true, false => .lt
  | false, true => .gt
  | false, false => listCmp charCmp a b

/-- The crate's comparison of dot-separated identifier lists: pointwise by
`cmpIdent`, a strict prefix sorting first. -/
def cmpIdents : List (List Char) → List (List Char) → Ordering :=
  listCmp cmpIdent

/-- The crate's `Ord for Prerelease`: an empty pre-release (a release)
sorts above any non-empty one; otherwise identifier lists compare by
`cmpIdents`. -/
def cmpPre (a b : List (List Char)) : Ordering :=
  match a, b with
  | [], [] => .eq
  | [], _ :: _ => .gt
  | _ :: _, [] => .lt
  | _, _ => cmpIdents a b

/-- The crate's `Ord for Version`: major, minor, patch, pre-release, then
build metadata. -/
def cmp (a b : Version) : Ordering :=
  (natCmp a.major b.major).then
    ((natCmp a.minor b.minor).then
      ((natCmp a.patch b.patch).then
        ((cmpPre a.pre b.pre).then (cmpIdents a.build b.build))))

/-- The key tuple underlying `Semver.cmp` (used to derive its laws). -/
def toKey (v : Version) :
    Nat × (Nat × (Nat × (List (List Char) × List (List Char)))) :=
  (v.major, (v.minor, (v.patch, (v.pre, v.build))))

end Semver

/-! ## `src/pages/versions.rs` — data model -/

/-- `VersionInfo { ver, kind }` from `versions.rs`. -/
structure VersionInfo where
  ver : String
  kind : String
deriving DecidableEq, Repr

/-- `VersionPage::parse_semver`: splits the raw string on `'-'`, takes the
first segment as the core, pads the core to three dot-separated components
by appending `"0"`s, appends `-` plus the *second* segment when the split
produced one (later segments are dropped, as in the source), and delegates
to strict semver parsing. -/
def parse_semver (raw : String) : Option Semver.Version :=
  let parts := splitOnChar '-' raw.data
  let core := parts.headD []
  let nums := splitOnChar '.' core
  let nums2 := nums ++ List.replicate (3 - nums.length) ['0']
  let fix := joinSep '.' nums2
  let fix2 :=
    match parts with
    | _ :: p :: _ => fix ++ '-' :: p
    | _ => fix
  Semver.parse fix2

/-- The parsing step as the specification describes it: split on the
*first* `'-'` only, so the whole remainder (which may itself contain
`'-'`) is re-joined as the pre-release suffix.  Kept separate from
`parse_semver` (the source) to compare the two behaviours. -/
def parse_semverSpecSplit (raw : String) : Option Semver.Version :=
  let p := splitFirst '-' raw.data
  let nums := splitOnChar '.' p.1
  let nums2 := nums ++ List.replicate (3 - nums.length) ['0']
  let fix := joinSep '.' nums2
  let fix2 :=
    match p.2 with
    | some rest => fix ++ '-' :: rest
    | none => fix
  Semver.parse fix2

/-- The comparator of `VersionPage::sort_versions`: compare the parsed
keys with `Option`'s order (`None` below any `Some`), reversing the result
when `sort_ascending` is false. -/
def compareVI (ascending : Bool) (a b : VersionInfo) : Ordering :=
  let sa := parse_semver a.ver
  let sb := parse_semver b.ver
  let ord := optCmp Semver.cmp sa sb
  if ascending then ord else ord.swap

/-- The non-strict relation induced by `compareVI` (what `Vec::sort_by`
sorts by). -/
abbrev leVI (ascending : Bool) (a b : VersionInfo) : Prop :=
  (compareVI ascending a b).isLE = true

/-- `VersionPage::sort_versions`.  Rust's `Vec::sort_by` is a stable sort;
any two stable sorts of the same total preorder agree, so it is modelled
by (stable) insertion sort. -/
def sort_versions (ascending : Bool) (l : List VersionInfo) : List VersionInfo :=
  List.insertionSort (leVI ascending) l

/-! ## `src/pages/versions.rs` — download task state machine -/

/-- `ProgressEvent` from `versions.rs`; the `f32` fraction is modelled as
an exact rational. -/
inductive ProgressEvent where
  | progress (f : ℚ)
  | error (msg : String)
  | finished
deriving DecidableEq

/-- `TaskState` from `versions.rs`.  The receiver half of the channel is
modelled by an identifier. -/
inductive TaskState where
  | none
  | inProgress (ver : String) (rx : Nat)
  | done
deriving DecidableEq

/-- The fields of `VersionPage` the claims are about (the remaining fields
are pure UI filter controls). -/
structure VPState where
  versions : List VersionInfo
  status_msg : Option String
  progress_frac : Option ℚ
  task : TaskState
  sort_ascending : Bool
deriving DecidableEq

/-- `VersionPage::spawn_download`.  `freshRx` identifies the newly created
channel; the returned flag records whether a worker thread was spawned. -/
def spawn_download (s : VPState) (v : VersionInfo) (freshRx : Nat) :
    VPState × Bool :=
  match s.task with
  | .inProgress _ _ =>
    ({ s with status_msg := some "A download is already running" }, false)
  | _ =>
    ({ s with
        task := .inProgress v.ver freshRx,
        progress_frac := some 0,
        status_msg := some ("Downloading v" ++ v.ver ++ "…") }, true)

/-- One drained event inside `VersionPage::poll_task`'s `try_recv` loop:
updates the visible state and records the pending `next_state`. -/
def pollStep (ver : String) :
    VPState × Option TaskState → ProgressEvent → VPState × Option TaskState
  | (s, next), .progress f => ({ s with progress_frac := some f }, next)
  | (s, _), .finished =>
    ({ s with
        status_msg := some ("v" ++ ver ++ " downloaded & extracted"),
        progress_frac := none }, some .done)
  | (s, _), .error e =>
    ({ s with
        status_msg := some ("Error: " ++ e),
        progress_frac := none }, some .none)

/-- `VersionPage::poll_task`: when a task is in progress, drain the queued
events in FIFO order and then apply the recorded `next_state`; otherwise a
no-op. -/
def poll_task (s : VPState) (events : List ProgressEvent) : VPState :=
  match s.task with
  | .inProgress ver _ =>
    let r := events.foldl (pollStep ver) (s, Option.none)
    match r.2 with
    | some t => { r.1 with task := t }
    | none => r.1
  | _ => s

/-! ## `src/pages/versions.rs` — the worker's download loop -/

/-- The 8 KiB buffer size of `download_and_extract`. -/
def chunkSize : Nat := 8192

/-- Number of chunks needed to read `body` bytes. -/
def numChunks (body : Nat) : Nat := (body + chunkSize - 1) / chunkSize

/-- The read loop of `download_and_extract`: read up to 8 KiB, write it,
and emit `Progress(downloaded / total)` only when the server-reported
content length `total` is positive.  `rem` is the number of body bytes
still to come, `downloaded` the bytes written so far. -/
def downloadLoop (total : Nat) (rem : Nat) (downloaded : Nat) :
    List ProgressEvent :=
  if h : rem = 0 then []
  else
    let n := min chunkSize rem
    let d := downloaded + n
    (if 0 < total then [ProgressEvent.progress ((d : ℚ) / (total : ℚ))] else [])
      ++ downloadLoop total (rem - n) d
termination_by rem
decreasing_by
  have hc : 0 < min chunkSize rem := by
    have : 0 < rem := Nat.pos_of_ne_zero h
    simp [chunkSize]
    omega
  omega

/-- All `Progress` events emitted while downloading a `body`-byte response
whose reported content length is `contentLength` (`resp.content_length()`,
with `unwrap_or(0)`). -/
def download_progress_events (contentLength : Option Nat) (body : Nat) :
    List ProgressEvent :=
  downloadLoop (contentLength.getD 0) body 0

/-- The fraction carried by a `Progress` event (`0` otherwise). -/
def evFrac : ProgressEvent → ℚ
  | .progress f => f
  | _ => 0

/-! ## `src/pages/versions.rs` — catalog fetch -/

/-- Substring test on character lists (Rust `str::contains`). -/
def containsSub (l pat : List Char) : Bool :=
  l.tails.any fun t => pat.isPrefixOf t

/-- Channel inference in `fetch_versions` when the JSON object has no
`type` field: substring match on the raw name, in order `rc`, `dev`,
`pre`, else `stable`. -/
def inferKind (raw : String) : String :=
  if containsSub raw.data "rc".data then "rc"
  else if containsSub raw.data "dev".data then "dev"
  else if containsSub raw.data "pre".data then "preview"
  else "stable"

/-- One element of the `gameversions` JSON array, reduced to the two
fields `fetch_versions` reads (`as_str()` results). -/
structure RawGameVersion where
  name : Option String
  vtype : Option String
deriving DecidableEq

/-- Building one `VersionInfo` inside `fetch_versions`'s loop: default the
name to `""`, strip leading `'v'`s, and infer the channel when `type` is
absent. -/
def mkVersionInfo (o : RawGameVersion) : VersionInfo :=
  let raw := o.name.getD ""
  let name : String := ⟨raw.data.dropWhile (· = 'v')⟩
  let kind :=
    match o.vtype with
    | some s => s
    | none => inferKind raw
  ⟨name, kind⟩

/-- Outcome of the network request plus JSON decoding in
`fetch_versions`: transport/decode error, a JSON value without a
`gameversions` array, or the array itself. -/
inductive FetchOutcome where
  | err (e : String)
  | shape
  | ok (arr : List RawGameVersion)

/-- `VersionPage::fetch_versions`: sets a fetching status and *clears the
version list* before the request; on success replaces the list (sorted)
and reports the count, otherwise reports the error. -/
def fetch_versions (s : VPState) (outcome : FetchOutcome) : VPState :=
  let s1 : VPState := { s with status_msg := some "Fetching list…", versions := [] }
  match outcome with
  | .err e => { s1 with status_msg := some ("Error: " ++ e) }
  | .shape => { s1 with status_msg := some "Unexpected JSON shape" }
  | .ok arr =>
    let vs := sort_versions s1.sort_ascending (arr.map mkVersionInfo)
    { s1 with
        versions := vs,
        status_msg := some ("Found " ++ toString vs.length ++ " versions") }

/-! ## `src/pages/instances.rs` — instance deletion -/

/-- `Instance { name, version }`. -/
structure Instance where
  name : String
  version : String
deriving DecidableEq, Repr

/-- The fields of `InstancesPage` relevant to deletion, plus the contents
of the persisted `instances.json` registry. -/
structure IPState where
  instances : List Instance
  status_msg : Option String
  persisted : List Instance
deriving DecidableEq

/-- `InstancesPage::remove_instance`.  `fsRemove` is the outcome of
`fs::remove_dir_all` on the instance's folder.  On a removal error the
function returns early with a delete-error status; on success the entry is
removed and the registry re-persisted.  When the index is out of bounds
the source reaches `Vec::remove(idx)` and panics, modelled as `none`. -/
def remove_instance (s : IPState) (idx : Nat)
    (fsRemove : Except String Unit) : Option IPState :=
  match s.instances.get? idx with
  | some _ =>
    match fsRemove with
    | .error e => some { s with status_msg := some ("Delete error: " ++ e) }
    | .ok _ =>
      let l := s.instances.eraseIdx idx
      some { instances := l, status_msg := some "Instance deleted", persisted := l }
  | none =>
    match fsRemove with
    | _ => Option.none

/-! ## `src/main.rs` — launching an instance -/

/-- `VersionPage::versions_dir`, with the `data_local_dir()` fallback
collapsed into the `dataDir` parameter. -/
def versions_dir (dataDir : String) : String :=
  dataDir ++ "/vs_launcher/versions"

/-- `VersionPage::install_dir`. -/
def install_dir (dataDir ver : String) : String :=
  versions_dir dataDir ++ "/" ++ ver ++ "/install"

/-- The ordered candidate executables probed by
`VsLauncherApp::launch_instance`. -/
def launch_candidates (dataDir ver : String) : List String :=
  let root := install_dir dataDir ver ++ "/vintagestory"
  [root ++ "/Vintagestory", root ++ "/run.sh", root ++ "/Vintagestory.exe"]

/-- The environment `launch_instance` interacts with: the data directory,
which paths exist on disk, and the outcome of `Command::spawn`. -/
structure LaunchEnv where
  dataDir : String
  pathExists : String → Bool
  spawn : Except String Unit

/-- `VsLauncherApp::launch_instance`, reduced to the status string it
stores: probe the candidates in order (first existing path wins), report
a not-found status when none exists, otherwise spawn (the best-effort
permission fix does not affect the status) and report the spawn outcome.
It always returns a status string; nothing is thrown past this
boundary. -/
def launch_instance (env : LaunchEnv) (inst : Instance) : String :=
  match (launch_candidates env.dataDir inst.version).find? env.pathExists with
  | none => "Executable not found for " ++ inst.name
  | some _ =>
    match env.spawn with
    | .ok _ => "Launched " ++ inst.name
    | .error e => "Launch error: " ++ e

/-! ## `src/pages/mods.rs` — fetch-ahead pagination -/

/-- `ApiMod`, with the numeric fields as `Nat`. -/
structure ApiMod where
  id : Nat
  displayname : String
  authorname : String
  downloadcount : Nat
  followcount : Nat
  commentcount : Nat
deriving DecidableEq, Repr

/-- The state of `ModsPage`; the receiver option is modelled by a flag. -/
structure ModsState where
  mods : List ApiMod
  next_page : Nat
  total_pages : Nat
  loading : Bool
  hasRx : Bool
deriving DecidableEq

/-- `ModsPage::default()`. -/
def mods_init : ModsState :=
  { mods := [], next_page := 1, total_pages := 0, loading := false, hasRx := false }

/-- A request handed to a worker thread (the `page` and `pageSize` query
parameters of `fetch_page`). -/
structure FetchReq where
  page : Nat
  size : Nat
deriving DecidableEq, Repr

/-- `ModsPage::start_fetch`: mark loading, install a fresh receiver, spawn
the worker (returned as the request it will perform), and bump
`next_page`. -/
def start_fetch (s : ModsState) (page size : Nat) : ModsState × FetchReq :=
  ({ s with loading := true, hasRx := true, next_page := page + 1 },
   ⟨page, size⟩)

/-- One frame of `ModsPage::ui`.  `incoming` is the message `try_recv`
would yield this frame (consumed only when a receiver is installed).  In
source order: the first-run fetch of page 1 with size 96, then the poll
(on a result: clear loading and the receiver and, on `Ok`, record
`totalPages` and append the mods), then the render pass, which requests
the next page with size 24 when some rendered index is at or past 80% of
the loaded count, no fetch is in flight and pages remain.  Returns the new
state and the spawned requests in order. -/
def mods_ui (s : ModsState)
    (incoming : Option (Except String (List ApiMod × Nat))) :
    ModsState × List FetchReq :=
  let first :=
    if s.mods.isEmpty && !s.loading then
      let r := start_fetch s 1 96
      (r.1, [r.2])
    else (s, [])
  let s1 := first.1
  let s2 :=
    if s1.hasRx then
      match incoming with
      | some res =>
        let sa := { s1 with loading := false, hasRx := false }
        match res with
        | .ok (ms, total) => { sa with total_pages := total, mods := sa.mods ++ ms }
        | .error _ => sa
      | none => s1
    else s1
  let needMore := (List.range s2.mods.length).any fun i =>
    !s2.loading && decide (s2.next_page ≤ s2.total_pages)
      && decide (s2.mods.length * 4 / 5 ≤ i)
  if needMore then
    let r := start_fetch s2 s2.next_page 24
    (r.1, first.2 ++ [r.2])
  else (s2, first.2)

/-! ## Laws of the comparators -/

theorem then_eq_iff (o₁ o₂ : Ordering) :
    o₁.then o₂ = .eq ↔ o₁ = .eq ∧ o₂ = .eq := by
  cases o₁ <;> cases o₂ <;> decide

theorem then_lt_iff (o₁ o₂ : Ordering) :
    o₁.then o₂ = .lt ↔ o₁ = .lt ∨ (o₁ = .eq ∧ o₂ = .lt) := by
  cases o₁ <;> cases o₂ <;> decide

theorem then_swap (o₁ o₂ : Ordering) :
    (o₁.then o₂).swap = o₁.swap.then o₂.swap := by
  cases o₁ <;> cases o₂ <;> rfl

theorem natCmp_lt_iff (a b : Nat) : natCmp a b = .lt ↔ a < b := by
  unfold natCmp; split_ifs <;> simp <;> omega

theorem natCmp_eq_iff (a b : Nat) : natCmp a b = .eq ↔ a = b := by
  unfold natCmp; split_ifs <;> simp <;> omega

theorem natCmp_lawful : LawfulCmp natCmp := by
  refine ⟨?_, natCmp_eq_iff, ?_⟩
  · intro a b
    unfold natCmp
    split_ifs <;> simp [Ordering.swap] <;> omega
  · intro a b d h1 h2
    rw [natCmp_lt_iff] at h1 h2 ⊢
    omega

theorem LawfulCmp.cmp_refl {α : Type _} {c : α → α → Ordering}
    (h : LawfulCmp c) (a : α) : c a a = .eq :=
  (h.eq_iff a a).2 rfl

theorem LawfulCmp.gt_iff {α : Type _} {c : α → α → Ordering}
    (h : LawfulCmp c) (a b : α) : c a b = .gt ↔ c b a = .lt := by
  rw [← h.swap_eq b a]
  cases c b a <;> simp [Ordering.swap]

theorem LawfulCmp.isLE_iff {α : Type _} {c : α → α → Ordering}
    (h : LawfulCmp c) (a b : α) :
    (c a b).isLE = true ↔ c a b = .lt ∨ a = b := by
  cases hab : c a b with
  | lt => simp [Ordering.isLE]
  | eq => simpa [Ordering.isLE] using ((h.eq_iff a b).1 hab)
  | gt =>
    simp only [Ordering.isLE]
    constructor
    · intro hfalse; cases hfalse
    · rintro (hlt | rfl)
      · cases hlt
      · rw [h.cmp_refl a] at hab; cases hab

theorem LawfulCmp.isLE_trans {α : Type _} {c : α → α → Ordering}
    (h : LawfulCmp c) {a b d : α}
    (h1 : (c a b).isLE = true) (h2 : (c b d).isLE = true) :
    (c a d).isLE = true := by
  rw [h.isLE_iff] at h1 h2 ⊢
  rcases h1 with h1 | rfl
  · rcases h2 with h2 | rfl
    · exact Or.inl (h.lt_trans h1 h2)
    · exact Or.inl h1
  · exact h2

theorem LawfulCmp.isLE_total {α : Type _} {c : α → α → Ordering}
    (h : LawfulCmp c) (a b : α) :
    (c a b).isLE = true ∨ (c b a).isLE = true := by
  cases hab : c a b with
  | lt => exact Or.inl (by simp [Ordering.isLE])
  | eq => exact Or.inl (by simp [Ordering.isLE])
  | gt =>
    refine Or.inr ?_
    rw [h.gt_iff] at hab
    simp [hab, Ordering.isLE]

theorem LawfulCmp.comap {α β : Type _} {c : β → β → Ordering}
    (h : LawfulCmp c) (f : α → β) (hf : ∀ x y, f x = f y → x = y) :
    LawfulCmp (fun a b => c (f a) (f b)) := by
  refine ⟨fun a b => h.swap_eq _ _, fun a b => ?_, fun a b d h1 h2 => h.lt_trans h1 h2⟩
  rw [h.eq_iff]
  exact ⟨hf a b, fun hab => by rw [hab]⟩

theorem pairCmp_lawful {α β : Type _} {c₁ : α → α → Ordering}
    {c₂ : β → β → Ordering} (h₁ : LawfulCmp c₁) (h₂ : LawfulCmp c₂) :
    LawfulCmp (pairCmp c₁ c₂) := by
  refine ⟨fun a b => ?_, fun a b => ?_, fun a b d hab hbd => ?_⟩
  · simp only [pairCmp, then_swap, h₁.swap_eq, h₂.swap_eq]
  · simp only [pairCmp, then_eq_iff, h₁.eq_iff, h₂.eq_iff, Prod.ext_iff]
  · simp only [pairCmp, then_lt_iff] at hab hbd ⊢
    rcases hab with hab | ⟨hab, hab2⟩
    · rcases hbd with hbd | ⟨hbd, hbd2⟩
      · exact Or.inl (h₁.lt_trans hab hbd)
      · exact Or.inl (((h₁.eq_iff _ _).1 hbd) ▸ hab)
    · rcases hbd with hbd | ⟨hbd, hbd2⟩
      · exact Or.inl (((h₁.eq_iff _ _).1 hab) ▸ hbd)
      · refine Or.inr ⟨?_, h₂.lt_trans hab2 hbd2⟩
        rw [h₁.eq_iff] at hab hbd ⊢
        exact hab.trans hbd

theorem listCmp_cons_cons {α : Type _} (c : α → α → Ordering)
    (x y : α) (xs ys : List α) :
    listCmp c (x :: xs) (y :: ys) = (c x y).then (listCmp c xs ys) := by
  cases hxy : c x y <;> simp [listCmp, hxy, Ordering.then]

theorem listCmp_lawful {α : Type _} {c : α → α → Ordering}
    (h : LawfulCmp c) : LawfulCmp (listCmp c) := by
  refine ⟨?_, ?_, ?_⟩
  · intro a
    induction a with
    | nil => intro b; cases b <;> rfl
    | cons x xs ih =>
      intro b
      cases b with
      | nil => rfl
      | cons y ys =>
        rw [listCmp_cons_cons, listCmp_cons_cons, then_swap, h.swap_eq, ih]
  · intro a
    induction a with
    | nil => intro b; cases b <;> simp [listCmp]
    | cons x xs ih =>
      intro b
      cases b with
      | nil => simp [listCmp]
      | cons y ys =>
        rw [listCmp_cons_cons, then_eq_iff, h.eq_iff, ih]
        simp
  · intro a
    induction a with
    | nil =>
      intro b d h1 h2
      cases b with
      | nil => cases d <;> simpa using h2
      | cons y ys =>
        cases d with
        | nil => simp [listCmp] at h2
        | cons z zs => simp [listCmp]
    | cons x xs ih =>
      intro b d h1 h2
      cases b with
      | nil => simp [listCmp] at h1
      | cons y ys =>
        cases d with
        | nil => simp [listCmp] at h2
        | cons z zs =>
          rw [listCmp_cons_cons] at h1 h2 ⊢
          rw [then_lt_iff] at h1 h2 ⊢
          rcases h1 with hxy | ⟨hxy, h1r⟩
          · rcases h2 with hyz | ⟨hyz, h2r⟩
            · exact Or.inl (h.lt_trans hxy hyz)
            · exact Or.inl (((h.eq_iff y z).1 hyz) ▸ hxy)
          · rcases h2 with hyz | ⟨hyz, h2r⟩
            · exact Or.inl (((h.eq_iff x y).1 hxy) ▸ hyz)
            · have exy : x = y := (h.eq_iff x y).1 hxy
              have eyz : y = z := (h.eq_iff y z).1 hyz
              subst exy; subst eyz
              exact Or.inr ⟨h.cmp_refl x, ih h1r h2r⟩

theorem optCmp_lawful {α : Type _} {c : α → α → Ordering}
    (h : LawfulCmp c) : LawfulCmp (optCmp c) := by
  refine ⟨fun a b => ?_, fun a b => ?_, fun a b d h1 h2 => ?_⟩
  · cases a <;> cases b <;> first | rfl | (simp only [optCmp]; exact h.swap_eq _ _)
  · cases a <;> cases b <;> simp [optCmp, h.eq_iff]
  · cases a with
    | none =>
      cases b with
      | none => exact h2
      | some vb =>
        cases d with
        | none => simp [optCmp] at h2
        | some vd => simp [optCmp]
    | some va =>
      cases b with
      | none => simp [optCmp] at h1
      | some vb =>
        cases d with
        | none => simp [optCmp] at h2
        | some vd =>
          simp only [optCmp] at h1 h2 ⊢
          exact h.lt_trans h1 h2

theorem charCmp_lawful : LawfulCmp charCmp := by
  have := natCmp_lawful.comap Char.toNat
    (fun x y hxy => by rw [← Char.ofNat_toNat x, ← Char.ofNat_toNat y, hxy])
  exact this

theorem numLexCmp_lawful :
    LawfulCmp (fun a b : List Char =>
      (natCmp a.length b.length).then (listCmp charCmp a b)) := by
  have h := (pairCmp_lawful natCmp_lawful (listCmp_lawful charCmp_lawful)).comap
    (fun s : List Char => (s.length, s)) (fun x y hxy => congrArg Prod.snd hxy)
  simpa only [pairCmp] using h

theorem cmpIdent_TT {a b : List Char} (hA : a.all Char.isDigit = true)
    (hB : b.all Char.isDigit = true) :
    Semver.cmpIdent a b = (natCmp a.length b.length).then (listCmp charCmp a b) := by
  simp [Semver.cmpIdent, hA, hB]

theorem cmpIdent_TF {a b : List Char} (hA : a.all Char.isDigit = true)
    (hB : b.all Char.isDigit = false) : Semver.cmpIdent a b = .lt := by
  simp [Semver.cmpIdent, hA, hB]

theorem cmpIdent_FT {a b : List Char} (hA : a.all Char.isDigit = false)
    (hB : b.all Char.isDigit = true) : Semver.cmpIdent a b = .gt := by
  simp [Semver.cmpIdent, hA, hB]

theorem cmpIdent_FF {a b : List Char} (hA : a.all Char.isDigit = false)
    (hB : b.all Char.isDigit = false) :
    Semver.cmpIdent a b = listCmp charCmp a b := by
  simp [Semver.cmpIdent, hA, hB]

theorem cmpIdent_lawful : LawfulCmp Semver.cmpIdent := by
  refine ⟨?_, ?_, ?_⟩
  · intro a b
    cases hA : a.all Char.isDigit <;> cases hB : b.all Char.isDigit
    · rw [cmpIdent_FF hA hB, cmpIdent_FF hB hA]
      exact (listCmp_lawful charCmp_lawful).swap_eq a b
    · rw [cmpIdent_FT hA hB, cmpIdent_TF hB hA]; rfl
    · rw [cmpIdent_TF hA hB, cmpIdent_FT hB hA]; rfl
    · rw [cmpIdent_TT hA hB, cmpIdent_TT hB hA]
      exact numLexCmp_lawful.swap_eq a b
  · intro a b
    cases hA : a.all Char.isDigit <;> cases hB : b.all Char.isDigit
    · rw [cmpIdent_FF hA hB]
      exact (listCmp_lawful charCmp_lawful).eq_iff a b
    · rw [cmpIdent_FT hA hB]
      constructor
      · intro habs; cases habs
      · rintro rfl; rw [hA] at hB; cases hB
    · rw [cmpIdent_TF hA hB]
      constructor
      · intro habs; cases habs
      · rintro rfl; rw [hA] at hB; cases hB
    · rw [cmpIdent_TT hA hB]
      exact numLexCmp_lawful.eq_iff a b
  · intro a b d h1 h2
    cases hA : a.all Char.isDigit <;> cases hB : b.all Char.isDigit <;>
        cases hD : d.all Char.isDigit
    · rw [cmpIdent_FF hA hB] at h1
      rw [cmpIdent_FF hB hD] at h2
      rw [cmpIdent_FF hA hD]
      exact (listCmp_lawful charCmp_lawful).lt_trans h1 h2
    · rw [cmpIdent_FT hB hD] at h2; cases h2
    · rw [cmpIdent_FT hA hB] at h1; cases h1
    · rw [cmpIdent_FT hA hB] at h1; cases h1
    · rw [cmpIdent_TF hA hD]
    · rw [cmpIdent_FT hB hD] at h2; cases h2
    · rw [cmpIdent_TF hA hD]
    · rw [cmpIdent_TT hA hB] at h1
      rw [cmpIdent_TT hB hD] at h2
      rw [cmpIdent_TT hA hD]
      exact numLexCmp_lawful.lt_trans h1 h2

theorem cmpIdents_lawful : LawfulCmp Semver.cmpIdents :=
  listCmp_lawful cmpIdent_lawful

theorem cmpPre_nil_nil : Semver.cmpPre [] [] = .eq := rfl

theorem cmpPre_nil_cons (y : List Char) (ys : List (List Char)) :
    Semver.cmpPre [] (y :: ys) = .gt := rfl

theorem cmpPre_cons_nil (x : List Char) (xs : List (List Char)) :
    Semver.cmpPre (x :: xs) [] = .lt := rfl

theorem cmpPre_cons_cons (x y : List Char) (xs ys : List (List Char)) :
    Semver.cmpPre (x :: xs) (y :: ys) = Semver.cmpIdents (x :: xs) (y :: ys) := rfl

theorem cmpPre_lawful : LawfulCmp Semver.cmpPre := by
  refine ⟨?_, ?_, ?_⟩
  · intro a b
    cases a <;> cases b
    · rfl
    · rfl
    · rfl
    · rw [cmpPre_cons_cons, cmpPre_cons_cons]
      exact cmpIdents_lawful.swap_eq _ _
  · intro a b
    cases a <;> cases b
    · simp [cmpPre_nil_nil]
    · rw [cmpPre_nil_cons]
      constructor
      · intro habs; cases habs
      · intro habs; cases habs
    · rw [cmpPre_cons_nil]
      constructor
      · intro habs; cases habs
      · intro habs; cases habs
    · rw [cmpPre_cons_cons]
      exact cmpIdents_lawful.eq_iff _ _
  · intro a b d h1 h2
    cases a <;> cases b <;> cases d
    · rw [cmpPre_nil_nil] at h1; cases h1
    · rw [cmpPre_nil_nil] at h1; cases h1
    · rw [cmpPre_nil_cons] at h1; cases h1
    · rw [cmpPre_nil_cons] at h1; cases h1
    · rw [cmpPre_nil_nil] at h2; cases h2
    · rw [cmpPre_nil_cons] at h2; cases h2
    · exact cmpPre_cons_nil _ _
    · rw [cmpPre_cons_cons] at h1 h2 ⊢
      exact cmpIdents_lawful.lt_trans h1 h2

theorem semverCmp_lawful : LawfulCmp Semver.cmp := by
  have base :=
    pairCmp_lawful natCmp_lawful
      (pairCmp_lawful natCmp_lawful
        (pairCmp_lawful natCmp_lawful
          (pairCmp_lawful cmpPre_lawful cmpIdents_lawful)))
  exact base.comap Semver.toKey
    (fun x y hxy => by
      cases x; cases y
      simp only [Semver.toKey, Prod.mk.injEq] at hxy
      simp_all)

theorem optSemverCmp_lawful : LawfulCmp (optCmp Semver.cmp) :=
  optCmp_lawful semverCmp_lawful

/-! ## Laws of the `sort_versions` comparator -/

theorem compareVI_true_def (a b : VersionInfo) :
    compareVI true a b = optCmp Semver.cmp (parse_semver a.ver) (parse_semver b.ver) :=
  rfl

theorem compareVI_false_eq (a b : VersionInfo) :
    compareVI false a b = compareVI true b a := by
  simp only [compareVI]
  exact optSemverCmp_lawful.swap_eq _ _

theorem leVI_trans (ascending : Bool) :
    ∀ a b d : VersionInfo, leVI ascending a b → leVI ascending b d → leVI ascending a d := by
  intro a b d h1 h2
  cases ascending with
  | true =>
    simp only [leVI, compareVI_true_def] at h1 h2 ⊢
    exact optSemverCmp_lawful.isLE_trans h1 h2
  | false =>
    simp only [leVI, compareVI_false_eq, compareVI_true_def] at h1 h2 ⊢
    exact optSemverCmp_lawful.isLE_trans h2 h1

theorem leVI_total (ascending : Bool) :
    ∀ a b : VersionInfo, leVI ascending a b ∨ leVI ascending b a := by
  intro a b
  cases ascending with
  | true =>
    simp only [leVI, compareVI_true_def]
    exact optSemverCmp_lawful.isLE_total _ _
  | false =>
    simp only [leVI, compareVI_false_eq, compareVI_true_def]
    exact (optSemverCmp_lawful.isLE_total _ _).symm

/-- Entries with equal parse keys relate both ways under `leVI`. -/
theorem leVI_of_key_eq (ascending : Bool) (a b : VersionInfo)
    (hk : parse_semver a.ver = parse_semver b.ver) : leVI ascending a b := by
  have hkey : optCmp Semver.cmp (parse_semver a.ver) (parse_semver b.ver) = .eq :=
    (optSemverCmp_lawful.eq_iff _ _).2 hk
  cases ascending with
  | true => simp [leVI, compareVI_true_def, hkey, Ordering.isLE]
  | false =>
    simp [leVI, compareVI_false_eq, compareVI_true_def,
      (optSemverCmp_lawful.eq_iff _ _).2 hk.symm, Ordering.isLE]


/-! ## Laws of `splitOnChar`, `joinSep` and `splitFirst` -/

theorem splitOnChar_cons_of_eq {sep : Char} {xs h : List Char}
    {t : List (List Char)} (hr : splitOnChar sep xs = h :: t) :
    splitOnChar sep (sep :: xs) = [] :: h :: t := by
  simp only [splitOnChar, hr]
  simp

theorem splitOnChar_cons_of_ne {sep x : Char} {xs h : List Char}
    {t : List (List Char)} (hr : splitOnChar sep xs = h :: t) (hx : x ≠ sep) :
    splitOnChar sep (x :: xs) = (x :: h) :: t := by
  simp only [splitOnChar, hr]
  simp [hx]

theorem splitOnChar_ne_nil (sep : Char) (l : List Char) :
    splitOnChar sep l ≠ [] := by
  induction l with
  | nil => simp [splitOnChar]
  | cons x xs ih =>
    cases hr : splitOnChar sep xs with
    | nil => exact absurd hr ih
    | cons h t =>
      by_cases hx : x = sep
      · subst hx; rw [splitOnChar_cons_of_eq hr]; simp
      · rw [splitOnChar_cons_of_ne hr hx]; simp

theorem splitOnChar_of_not_mem {sep : Char} {l : List Char} (h : sep ∉ l) :
    splitOnChar sep l = [l] := by
  induction l with
  | nil => rfl
  | cons x xs ih =>
    have hx : x ≠ sep := fun hxe => h (hxe ▸ List.mem_cons_self x xs)
    have hxs : sep ∉ xs := fun hm => h (List.mem_cons_of_mem x hm)
    rw [splitOnChar_cons_of_ne (ih hxs) hx]

theorem not_mem_of_mem_splitOnChar {sep : Char} {l comp : List Char}
    (h : comp ∈ splitOnChar sep l) : sep ∉ comp := by
  induction l generalizing comp with
  | nil =>
    simp only [splitOnChar, List.mem_singleton] at h
    subst h; simp
  | cons x xs ih =>
    cases hr : splitOnChar sep xs with
    | nil => exact absurd hr (splitOnChar_ne_nil sep xs)
    | cons hd t =>
      by_cases hx : x = sep
      · subst hx
        rw [splitOnChar_cons_of_eq hr] at h
        rcases List.mem_cons.1 h with rfl | h
        · simp
        · exact ih (hr ▸ h)
      · rw [splitOnChar_cons_of_ne hr hx] at h
        rcases List.mem_cons.1 h with rfl | h
        · have hhd : hd ∈ splitOnChar sep xs := by
            rw [hr]; exact List.mem_cons_self _ _
          intro hmem
          rcases List.mem_cons.1 hmem with heq | hmem
          · exact hx heq.symm
          · exact ih hhd hmem
        · exact ih (hr ▸ List.mem_cons_of_mem _ h)

theorem mem_of_mem_splitOnChar {sep x : Char} {l comp : List Char}
    (h : comp ∈ splitOnChar sep l) (hx : x ∈ comp) : x ∈ l := by
  induction l generalizing comp with
  | nil =>
    simp only [splitOnChar, List.mem_singleton] at h
    subst h; cases hx
  | cons y ys ih =>
    cases hr : splitOnChar sep ys with
    | nil => exact absurd hr (splitOnChar_ne_nil sep ys)
    | cons hd t =>
      by_cases hy : y = sep
      · subst hy
        rw [splitOnChar_cons_of_eq hr] at h
        rcases List.mem_cons.1 h with rfl | h
        · cases hx
        · exact List.mem_cons_of_mem _ (ih (hr ▸ h) hx)
      · rw [splitOnChar_cons_of_ne hr hy] at h
        rcases List.mem_cons.1 h with rfl | h
        · rcases List.mem_cons.1 hx with rfl | hx
          · exact List.mem_cons_self _ _
          · have hhd : hd ∈ splitOnChar sep ys := by
              rw [hr]; exact List.mem_cons_self _ _
            exact List.mem_cons_of_mem _ (ih hhd hx)
        · exact List.mem_cons_of_mem _ (ih (hr ▸ List.mem_cons_of_mem _ h) hx)

theorem joinSep_splitOnChar (sep : Char) (l : List Char) :
    joinSep sep (splitOnChar sep l) = l := by
  induction l with
  | nil => rfl
  | cons x xs ih =>
    cases hr : splitOnChar sep xs with
    | nil => exact absurd hr (splitOnChar_ne_nil sep xs)
    | cons hd t =>
      rw [hr] at ih
      by_cases hx : x = sep
      · subst hx
        rw [splitOnChar_cons_of_eq hr]
        simpa [joinSep] using ih
      · rw [splitOnChar_cons_of_ne hr hx]
        cases t with
        | nil => simpa [joinSep] using ih
        | cons t0 ts =>
          simp only [joinSep] at ih ⊢
          simp [← ih]

theorem mem_joinSep {sep x : Char} {comps : List (List Char)}
    (h : x ∈ joinSep sep comps) : x = sep ∨ ∃ comp ∈ comps, x ∈ comp := by
  induction comps with
  | nil => cases h
  | cons c cs ih =>
    cases cs with
    | nil =>
      simp only [joinSep] at h
      exact Or.inr ⟨c, List.mem_cons_self _ _, h⟩
    | cons c1 cs1 =>
      simp only [joinSep] at h
      rcases List.mem_append.1 h with h | h
      · exact Or.inr ⟨c, List.mem_cons_self _ _, h⟩
      · rcases List.mem_cons.1 h with rfl | h
        · exact Or.inl rfl
        · rcases ih h with h | ⟨comp, hc, hx⟩
          · exact Or.inl h
          · exact Or.inr ⟨comp, List.mem_cons_of_mem _ hc, hx⟩

theorem splitOnChar_append_cons {sep : Char} {l₁ : List Char}
    (l₂ : List Char) (h : sep ∉ l₁) :
    splitOnChar sep (l₁ ++ sep :: l₂) = l₁ :: splitOnChar sep l₂ := by
  induction l₁ with
  | nil =>
    cases hr : splitOnChar sep l₂ with
    | nil => exact absurd hr (splitOnChar_ne_nil sep l₂)
    | cons hd t =>
      simpa using splitOnChar_cons_of_eq hr
  | cons a l₁t ih =>
    have ha : a ≠ sep := fun hae => h (hae ▸ List.mem_cons_self a l₁t)
    have hl : sep ∉ l₁t := fun hm => h (List.mem_cons_of_mem a hm)
    have ihh := ih hl
    calc splitOnChar sep (a :: l₁t ++ sep :: l₂)
        = (a :: l₁t) :: splitOnChar sep l₂ := by
          exact splitOnChar_cons_of_ne (by simpa using ihh) ha

theorem splitOnChar_joinSep {sep : Char} {comps : List (List Char)}
    (hne : comps ≠ []) (hs : ∀ comp ∈ comps, sep ∉ comp) :
    splitOnChar sep (joinSep sep comps) = comps := by
  induction comps with
  | nil => cases hne rfl
  | cons c cs ih =>
    cases cs with
    | nil =>
      simp only [joinSep]
      exact splitOnChar_of_not_mem (hs c (List.mem_cons_self _ _))
    | cons c1 cs1 =>
      simp only [joinSep]
      rw [splitOnChar_append_cons _ (hs c (List.mem_cons_self _ _))]
      rw [ih (by simp) (fun comp hc => hs comp (List.mem_cons_of_mem _ hc))]

theorem splitFirst_of_not_mem {sep : Char} {l : List Char} (h : sep ∉ l) :
    splitFirst sep l = (l, none) := by
  simp [splitFirst, splitOnChar_of_not_mem h]

theorem splitFirst_append_cons {sep : Char} {l₁ : List Char}
    (l₂ : List Char) (h : sep ∉ l₁) :
    splitFirst sep (l₁ ++ sep :: l₂) = (l₁, some l₂) := by
  simp only [splitFirst, splitOnChar_append_cons l₂ h]
  cases hr : splitOnChar sep l₂ with
  | nil => exact absurd hr (splitOnChar_ne_nil sep l₂)
  | cons hd t =>
    have hj : joinSep sep (hd :: t) = l₂ := by
      rw [← hr]; exact joinSep_splitOnChar sep l₂
    simp [hr, hj]

/-! ## Claim C1 — start() while Running is rejected without side effects -/

/-- C1: in every supervisor state whose task is `Running`, `start()`
(`spawn_download`) only sets the user-visible "already running" status: no
worker is spawned, and the running task (target version and event
channel), the progress fraction, and the version list are unchanged. -/
theorem claim_C1 (s : VPState) (v : VersionInfo) (freshRx : Nat)
    (ver : String) (rx : Nat) (h : s.task = .inProgress ver rx) :
    spawn_download s v freshRx =
      ({ s with status_msg := some "A download is already running" }, false) ∧
    (spawn_download s v freshRx).1.task = TaskState.inProgress ver rx ∧
    (spawn_download s v freshRx).1.progress_frac = s.progress_frac ∧
    (spawn_download s v freshRx).1.versions = s.versions ∧
    (spawn_download s v freshRx).2 = false := by
  have heq : spawn_download s v freshRx =
      ({ s with status_msg := some "A download is already running" }, false) := by
    simp only [spawn_download, h]
  refine ⟨heq, ?_, ?_, ?_, ?_⟩ <;> rw [heq] <;> simp [h]

/-- Witness for C1 at a concrete running state. -/
theorem claim_C1_witness :
    (⟨[], none, some 0, .inProgress "1.20.11" 7, false⟩ : VPState).task =
        TaskState.inProgress "1.20.11" 7 ∧
    spawn_download ⟨[], none, some 0, .inProgress "1.20.11" 7, false⟩
        ⟨"1.21.0", "stable"⟩ 8 =
      (⟨[], some "A download is already running", some 0,
        .inProgress "1.20.11" 7, false⟩, false) :=
  ⟨rfl, (claim_C1 ⟨[], none, some 0, .inProgress "1.20.11" 7, false⟩
      ⟨"1.21.0", "stable"⟩ 8 "1.20.11" 7 rfl).1⟩

/-! ## Claim C2 — draining Finished -/

/-- Polling is a no-op once the task state is `Done`. -/
theorem poll_task_done (s : VPState) (h : s.task = .done)
    (es : List ProgressEvent) : poll_task s es = s := by
  simp [poll_task, h]

/-- `start()` is accepted (a worker is spawned) from the `Done` state. -/
theorem spawn_download_from_done (s : VPState) (h : s.task = .done)
    (v : VersionInfo) (freshRx : Nat) :
    (spawn_download s v freshRx).2 = true := by
  simp [spawn_download, h]

/-- C2 counterexample: draining `Finished` moves the supervisor to the
`Done` state, not to `Idle` (`TaskState.none`), and the status message is
`"v1.2.3 downloaded & extracted"`, not `"downloaded & extracted"`. -/
theorem claim_C2_counterexample :
    (poll_task ⟨[], none, some 0, .inProgress "1.2.3" 0, false⟩
        [ProgressEvent.finished]).task ≠ TaskState.none ∧
    (poll_task ⟨[], none, some 0, .inProgress "1.2.3" 0, false⟩
        [ProgressEvent.finished]).status_msg ≠ some "downloaded & extracted" := by
  constructor
  · intro h; exact absurd h (by decide)
  · intro h; exact absurd h (by decide)

/-- C2 (amended): when `poll()` drains a queue ending in `Finished`, the
supervisor transitions to the terminal `Done` state — not to `Idle`; the
`Done` state persists through later polls but accepts a new `start()` just
like `Idle` — the visible progress fraction is cleared, and the status
message is set to `"v<version> downloaded & extracted"`. -/
theorem claim_C2 (s : VPState) (ver : String) (rx : Nat)
    (es : List ProgressEvent) (h : s.task = .inProgress ver rx) :
    (poll_task s (es ++ [.finished])).task = TaskState.done ∧
    (poll_task s (es ++ [.finished])).progress_frac = none ∧
    (poll_task s (es ++ [.finished])).status_msg =
      some ("v" ++ ver ++ " downloaded & extracted") ∧
    (∀ more, poll_task (poll_task s (es ++ [.finished])) more =
      poll_task s (es ++ [.finished])) ∧
    (∀ v freshRx,
      (spawn_download (poll_task s (es ++ [.finished])) v freshRx).2 = true) := by
  have hres : ∀ q : VPState × Option TaskState,
      (List.foldl (pollStep ver) q (es ++ [.finished])).2 = some TaskState.done ∧
      (List.foldl (pollStep ver) q (es ++ [.finished])).1.progress_frac = none ∧
      (List.foldl (pollStep ver) q (es ++ [.finished])).1.status_msg =
        some ("v" ++ ver ++ " downloaded & extracted") := by
    intro q
    rw [List.foldl_append]
    exact ⟨rfl, rfl, rfl⟩
  have hmain : (poll_task s (es ++ [.finished])).task = TaskState.done ∧
      (poll_task s (es ++ [.finished])).progress_frac = none ∧
      (poll_task s (es ++ [.finished])).status_msg =
        some ("v" ++ ver ++ " downloaded & extracted") := by
    simp only [poll_task, h]
    obtain ⟨h2, hp, hs'⟩ := hres (s, Option.none)
    rw [h2]
    exact ⟨rfl, hp, hs'⟩
  refine ⟨hmain.1, hmain.2.1, hmain.2.2, ?_, ?_⟩
  · intro more
    exact poll_task_done _ hmain.1 more
  · intro v freshRx
    exact spawn_download_from_done _ hmain.1 v freshRx

/-- Witness for C2 at a concrete running state and one-event queue. -/
theorem claim_C2_witness :
    (⟨[], none, some 0, .inProgress "1.2.3" 0, false⟩ : VPState).task =
        TaskState.inProgress "1.2.3" 0 ∧
    (poll_task ⟨[], none, some 0, .inProgress "1.2.3" 0, false⟩
        ([] ++ [.finished])).task = TaskState.done ∧
    (poll_task ⟨[], none, some 0, .inProgress "1.2.3" 0, false⟩
        ([] ++ [.finished])).status_msg = some ("v" ++ "1.2.3" ++ " downloaded & extracted") :=
  ⟨rfl,
   (claim_C2 ⟨[], none, some 0, .inProgress "1.2.3" 0, false⟩ "1.2.3" 0 [] rfl).1,
   (claim_C2 ⟨[], none, some 0, .inProgress "1.2.3" 0, false⟩ "1.2.3" 0 [] rfl).2.2.1⟩

/-! ## Claim C4 — fetch failure does not preserve the old list -/

/-- C4 counterexample: with one version already fetched, a failing fetch
does *not* leave the previous list unchanged — `fetch_versions` clears it
up front, so the list ends up empty. -/
theorem claim_C4_counterexample :
    (fetch_versions ⟨[⟨"1.0.0", "stable"⟩], none, none, .none, false⟩
        (.err "connection refused")).versions = [] ∧
    (⟨[⟨"1.0.0", "stable"⟩], none, none, .none, false⟩ : VPState).versions ≠ [] := by
  exact ⟨rfl, by decide⟩

/-- C4 (amended): `fetch()` clears the version list and sets a fetching
status before the network call, so on failure (network error or unexpected
JSON shape) the previously fetched list does **not** remain — the list is
left empty and an error status is surfaced. -/
theorem claim_C4 (s : VPState) (e : String) :
    (fetch_versions s (.err e)).versions = [] ∧
    (fetch_versions s (.err e)).status_msg = some ("Error: " ++ e) ∧
    (fetch_versions s .shape).versions = [] ∧
    (fetch_versions s .shape).status_msg = some "Unexpected JSON shape" := by
  exact ⟨rfl, rfl, rfl, rfl⟩

/-! ## Claim C9 — failed folder removal leaves the registry untouched -/

/-- C9: for a valid index, when the on-disk folder removal fails the
registry is untouched — the in-memory list and the persisted list are both
unchanged (so they still contain the instance) — and a delete-error status
is surfaced; the entry is removed and re-persisted exactly when the
removal succeeds. -/
theorem claim_C9 (s : IPState) (idx : Nat) (inst : Instance) (e : String)
    (h : s.instances.get? idx = some inst) :
    remove_instance s idx (.error e) =
      some { s with status_msg := some ("Delete error: " ++ e) } ∧
    inst ∈ s.instances ∧
    remove_instance s idx (.ok ()) =
      some ⟨s.instances.eraseIdx idx, some "Instance deleted",
            s.instances.eraseIdx idx⟩ := by
  have h2 : s.instances[idx]? = some inst := by
    rw [← List.get?_eq_getElem?]; exact h
  refine ⟨?_, List.get?_mem h, ?_⟩ <;> simp [remove_instance, h2]

/-- Witness for C9 at a concrete one-instance registry. -/
theorem claim_C9_witness :
    (⟨[⟨"Test", "1.20.11"⟩], none, [⟨"Test", "1.20.11"⟩]⟩ : IPState).instances.get? 0 =
        some ⟨"Test", "1.20.11"⟩ ∧
    remove_instance ⟨[⟨"Test", "1.20.11"⟩], none, [⟨"Test", "1.20.11"⟩]⟩ 0
        (.error "permission denied") =
      some ⟨[⟨"Test", "1.20.11"⟩], some ("Delete error: " ++ "permission denied"),
            [⟨"Test", "1.20.11"⟩]⟩ :=
  ⟨rfl, (claim_C9 ⟨[⟨"Test", "1.20.11"⟩], none, [⟨"Test", "1.20.11"⟩]⟩ 0
      ⟨"Test", "1.20.11"⟩ "permission denied" rfl).1⟩

/-! ## Claim C10 — fetch-ahead pagination -/

/-- C10: on first render with an empty mods list and no fetch in flight,
the browser triggers the page-1 fetch with the fixed initial page size 96
(first conjunct, covering any message the fresh receiver might already
hold, and the exact frame outcome when none arrives); and when the page-1
result of 96 items with `totalPages = 5` is loaded with no fetch in
flight, the render pass — whose rendered indices reach 80% of the loaded
count — triggers exactly one page-2 request for 24 items. -/
theorem claim_C10 :
    (∀ incoming, ((mods_ui mods_init incoming).2).head? = some ⟨1, 96⟩) ∧
    mods_ui mods_init none = (⟨[], 2, 0, true, true⟩, [⟨1, 96⟩]) ∧
    (∀ items : List ApiMod, items.length = 96 →
      mods_ui ⟨[], 2, 0, true, true⟩ (some (.ok (items, 5))) =
        (⟨items, 3, 5, true, true⟩, [⟨2, 24⟩])) := by
  refine ⟨?_, by decide, ?_⟩
  · intro incoming
    cases incoming with
    | none => decide
    | some res =>
      rcases res with ⟨ms, total⟩ | err <;>
        simp [mods_ui, mods_init, start_fetch] <;>
        split <;> rfl
  · intro items hlen
    simp only [mods_ui, start_fetch, mods_init]
    simp [hlen]
    exact ⟨80, by omega, by omega⟩

/-- Witness for C10's scenario conjunct at a concrete 96-item page. -/
theorem claim_C10_witness :
    mods_ui ⟨[], 2, 0, true, true⟩
        (some (.ok (List.replicate 96 ⟨0, "", "", 0, 0, 0⟩, 5))) =
      (⟨List.replicate 96 ⟨0, "", "", 0, 0, 0⟩, 3, 5, true, true⟩, [⟨2, 24⟩]) :=
  claim_C10.2.2 (List.replicate 96 ⟨0, "", "", 0, 0, 0⟩) (by simp)

/-! ## Claim C8 — launching probes candidates in order, never throws -/

/-- C8: `launch()` probes the ordered candidate executables and the first
existing path wins (the probe result is `some bin` exactly when `bin`
exists and every candidate listed before it does not); when no candidate
exists the status is the not-found message; and in every case the call
yields one of the three status strings (launched / not found / spawn
error) — nothing is thrown past this boundary. -/
theorem claim_C8 (env : LaunchEnv) (inst : Instance) :
    (∀ bin, (launch_candidates env.dataDir inst.version).find? env.pathExists
        = some bin ↔
      env.pathExists bin = true ∧
      ∃ pre post, launch_candidates env.dataDir inst.version = pre ++ bin :: post ∧
        ∀ q ∈ pre, env.pathExists q = false) ∧
    ((∀ p ∈ launch_candidates env.dataDir inst.version, env.pathExists p = false) →
      launch_instance env inst = "Executable not found for " ++ inst.name) ∧
    (launch_instance env inst = "Executable not found for " ++ inst.name ∨
     launch_instance env inst = "Launched " ++ inst.name ∨
     ∃ e, launch_instance env inst = "Launch error: " ++ e) := by
  refine ⟨?_, ?_, ?_⟩
  · intro bin
    rw [List.find?_eq_some]
    constructor
    · rintro ⟨hb, pre, post, heq, hpre⟩
      exact ⟨hb, pre, post, heq, fun q hq => by simpa using hpre q hq⟩
    · rintro ⟨hb, pre, post, heq, hpre⟩
      exact ⟨hb, pre, post, heq, fun q hq => by simp [hpre q hq]⟩
  · intro hall
    have hnone : (launch_candidates env.dataDir inst.version).find? env.pathExists
        = none := by
      rw [List.find?_eq_none]
      intro p hp
      simp [hall p hp]
    simp [launch_instance, hnone]
  · cases hfind : (launch_candidates env.dataDir inst.version).find? env.pathExists with
    | none => exact Or.inl (by simp [launch_instance, hfind])
    | some bin =>
      cases hs : env.spawn with
      | ok u => exact Or.inr (Or.inl (by simp [launch_instance, hfind, hs]))
      | error e => exact Or.inr (Or.inr ⟨e, by simp [launch_instance, hfind, hs]⟩)

/-- Witness for C8: the spec's scenario — instance `"Test"/"1.20.11"` with
no existing candidate executable — yields the not-found status. -/
theorem claim_C8_witness :
    launch_instance ⟨"/home/user/.local/share", fun _ => false, .ok ()⟩
        ⟨"Test", "1.20.11"⟩ = "Executable not found for Test" := by
  have h := (claim_C8 ⟨"/home/user/.local/share", fun _ => false, .ok ()⟩
      ⟨"Test", "1.20.11"⟩).2.1 (fun p _ => rfl)
  exact h.trans (by decide)

/-! ## Claim C3 — chunked download progress -/

/-- With no (or zero) reported content length, the loop emits nothing. -/
theorem downloadLoop_total_zero : ∀ rem d : Nat, downloadLoop 0 rem d = [] := by
  intro rem
  induction rem using Nat.strong_induction_on with
  | _ rem ih =>
    intro d
    rw [downloadLoop]
    split
    · rfl
    · next hrem =>
      have hc : chunkSize = 8192 := rfl
      have h0 : 0 < rem := Nat.pos_of_ne_zero hrem
      have hlt : rem - min chunkSize rem < rem := by omega
      simp only [Nat.lt_irrefl, dif_neg, if_neg, List.nil_append]
      exact ih _ hlt _

/-- Closed form of the download loop: with a positive reported total, one
`Progress` event per chunk, the `k`-th (1-based) event carrying
`(downloaded + min (k·chunkSize) rem) / total`. -/
theorem downloadLoop_closed (total : Nat) (htotal : 0 < total) :
    ∀ rem d : Nat, downloadLoop total rem d =
      (List.range (numChunks rem)).map
        (fun k => ProgressEvent.progress
          (((d + min ((k + 1) * chunkSize) rem : Nat) : ℚ) / (total : ℚ))) := by
  intro rem
  induction rem using Nat.strong_induction_on with
  | _ rem ih =>
    intro d
    rw [downloadLoop]
    split
    · next hrem =>
      subst hrem
      have hnum : numChunks 0 = 0 := by simp [numChunks, chunkSize]
      rw [hnum]
      rfl
    · next hrem =>
      have hc : chunkSize = 8192 := rfl
      have h0 : 0 < rem := Nat.pos_of_ne_zero hrem
      have hlt : rem - min chunkSize rem < rem := by omega
      simp only [ih _ hlt]
      have hsucc : numChunks rem = numChunks (rem - min chunkSize rem) + 1 := by
        simp only [numChunks, hc]
        omega
      rw [hsucc, List.range_succ_eq_map]
      simp only [List.map_cons, List.map_map, List.singleton_append]
      congr 1
      apply List.map_congr_left
      intro k hk
      simp only [Function.comp, Nat.succ_eq_add_one, hc]
      congr 3
      omega

/-- C3: for a download whose server-reported content length `L` matches
the body size, the worker emits one `Progress` event after every 8 KiB
chunk — and no `Progress` events at all when no content length was
reported — where the event after `k+1` chunks carries exactly
`min 1 ((k+1)·chunkSize / L)`, and the carried fractions are monotonically
non-decreasing along the event stream.  The `f32` arithmetic of the source
is modelled exactly over `ℚ`. -/
theorem claim_C3 :
    (∀ L : Nat, download_progress_events (some L) L =
      (List.range (numChunks L)).map
        (fun k => ProgressEvent.progress
          (min 1 ((((k + 1) * chunkSize : Nat) : ℚ) / (L : ℚ))))) ∧
    (∀ body : Nat, download_progress_events none body = []) ∧
    (∀ L : Nat, (download_progress_events (some L) L).Pairwise
      (fun e₁ e₂ => evFrac e₁ ≤ evFrac e₂)) ∧
    (∀ L : Nat, (download_progress_events (some L) L).length = numChunks L) := by
  have hmain : ∀ L : Nat, download_progress_events (some L) L =
      (List.range (numChunks L)).map
        (fun k => ProgressEvent.progress
          (min 1 ((((k + 1) * chunkSize : Nat) : ℚ) / (L : ℚ)))) := by
    intro L
    rcases Nat.eq_zero_or_pos L with h0 | hL
    · subst h0
      have h1 : download_progress_events (some 0) 0 = [] := by
        simp only [download_progress_events, Option.getD_some]
        rw [downloadLoop]
        simp
      have h2 : numChunks 0 = 0 := by simp [numChunks, chunkSize]
      rw [h1, h2]
      simp
    · unfold download_progress_events
      simp only [Option.getD_some]
      rw [downloadLoop_closed L hL L 0]
      apply List.map_congr_left
      intro k hk
      congr 1
      have hLne : ((L : ℚ)) ≠ 0 := by positivity
      have hL0 : (0 : ℚ) ≤ (L : ℚ) := by positivity
      have hcast : ((0 + min ((k + 1) * chunkSize) L : Nat) : ℚ) =
          min (((k + 1) * chunkSize : Nat) : ℚ) ((L : ℚ)) := by
        push_cast
        simp
      rw [hcast, ← min_div_div_right hL0, div_self hLne, min_comm]
  refine ⟨hmain, ?_, ?_, ?_⟩
  · intro body
    simp only [download_progress_events, Option.getD_none]
    exact downloadLoop_total_zero body 0
  · intro L
    rw [hmain L]
    rw [List.pairwise_map]
    apply (List.sorted_lt_range (numChunks L)).imp
    intro i j hij
    simp only [evFrac]
    rcases Nat.eq_zero_or_pos L with h0 | hL
    · subst h0
      simp
    · have hle : (((i + 1) * chunkSize : Nat) : ℚ) ≤ (((j + 1) * chunkSize : Nat) : ℚ) := by
        have hnat : (i + 1) * chunkSize ≤ (j + 1) * chunkSize :=
          Nat.mul_le_mul_right _ (by omega)
        exact_mod_cast hnat
      have hLpos : (0 : ℚ) < (L : ℚ) := by positivity
      exact min_le_min le_rfl ((div_le_div_right hLpos).mpr hle)
  · intro L
    rw [hmain L]
    simp

/-! ## Claim C5 — comparison semantics and placement of unparsable keys -/

/-- Under the ascending comparator, a later none-keyed entry forces the
earlier entry's key to be none as well. -/
theorem leVI_true_none (a b : VersionInfo) (h : leVI true a b)
    (hb : parse_semver b.ver = none) : parse_semver a.ver = none := by
  cases hka : parse_semver a.ver with
  | none => rfl
  | some v =>
    exfalso
    simp only [leVI, compareVI_true_def, hka, hb, optCmp, Ordering.isLE] at h
    exact Bool.noConfusion h

/-- Under the descending comparator, an earlier none-keyed entry forces
the later entry's key to be none as well. -/
theorem leVI_false_none (a b : VersionInfo) (h : leVI false a b)
    (ha : parse_semver a.ver = none) : parse_semver b.ver = none := by
  cases hkb : parse_semver b.ver with
  | none => rfl
  | some v =>
    exfalso
    simp only [leVI, compareVI_false_eq, compareVI_true_def, hkb, ha, optCmp,
      Ordering.isLE] at h
    exact Bool.noConfusion h

/-- C5 counterexample: with `ascending = true`, sorting places the
unparsable (none-keyed) entry *before* the parsable one — not after it
"regardless of ascending" as claimed. -/
theorem claim_C5_counterexample :
    parse_semver "abc" = none ∧
    (parse_semver "1.0.0").isSome = true ∧
    sort_versions true [⟨"1.0.0", "stable"⟩, ⟨"abc", "stable"⟩] =
      [⟨"abc", "stable"⟩, ⟨"1.0.0", "stable"⟩] := by
  refine ⟨by decide, by decide, by decide⟩

/-- C5 (amended): the comparator treats a `None` (unparsable) key as less
than any `Some` and reverses the natural order when `ascending` is false;
consequently the sorted order places none-keyed entries *before* all
parsable ones when ascending (pairwise: a parsable entry never follows a
none-keyed one... precisely: any entry preceding a none-keyed entry is
itself none-keyed) and *after* all parsable ones when descending. -/
theorem claim_C5 :
    (∀ v : Semver.Version, optCmp Semver.cmp none (some v) = .lt) ∧
    (∀ a b : VersionInfo, compareVI false a b = (compareVI true a b).swap) ∧
    (∀ l : List VersionInfo, (sort_versions true l).Pairwise
      (fun a b => parse_semver b.ver = none → parse_semver a.ver = none)) ∧
    (∀ l : List VersionInfo, (sort_versions false l).Pairwise
      (fun a b => parse_semver a.ver = none → parse_semver b.ver = none)) := by
  refine ⟨fun v => rfl, fun a b => rfl, ?_, ?_⟩
  · intro l
    haveI : IsTotal VersionInfo (leVI true) := ⟨leVI_total true⟩
    haveI : IsTrans VersionInfo (leVI true) := ⟨leVI_trans true⟩
    have hs : (sort_versions true l).Pairwise (leVI true) :=
      List.sorted_insertionSort (leVI true) l
    exact hs.imp fun hab hb => leVI_true_none _ _ hab hb
  · intro l
    haveI : IsTotal VersionInfo (leVI false) := ⟨leVI_total false⟩
    haveI : IsTrans VersionInfo (leVI false) := ⟨leVI_trans false⟩
    have hs : (sort_versions false l).Pairwise (leVI false) :=
      List.sorted_insertionSort (leVI false) l
    exact hs.imp fun hab ha => leVI_false_none _ _ hab ha

/-! ## Claim C7 — sorting laws -/

/-- A descending-related pair with distinct keys compares strictly `gt`. -/
theorem leVI_false_ne_gt (a b : VersionInfo) (h : leVI false a b)
    (hne : parse_semver a.ver ≠ parse_semver b.ver) :
    optCmp Semver.cmp (parse_semver a.ver) (parse_semver b.ver) = .gt := by
  rw [leVI, compareVI_false_eq, compareVI_true_def] at h
  cases hcv : optCmp Semver.cmp (parse_semver a.ver) (parse_semver b.ver) with
  | gt => rfl
  | eq => exact absurd ((optSemverCmp_lawful.eq_iff _ _).1 hcv) hne
  | lt =>
    exfalso
    have hgt : optCmp Semver.cmp (parse_semver b.ver) (parse_semver a.ver) = .gt :=
      (optSemverCmp_lawful.gt_iff _ _).2 hcv
    rw [hgt] at h
    exact Bool.noConfusion h

/-- An ascending-related pair with distinct keys compares strictly `lt`. -/
theorem leVI_true_ne_lt (a b : VersionInfo) (h : leVI true a b)
    (hne : parse_semver a.ver ≠ parse_semver b.ver) :
    optCmp Semver.cmp (parse_semver a.ver) (parse_semver b.ver) = .lt := by
  rw [leVI, compareVI_true_def] at h
  cases hcv : optCmp Semver.cmp (parse_semver a.ver) (parse_semver b.ver) with
  | lt => rfl
  | eq => exact absurd ((optSemverCmp_lawful.eq_iff _ _).1 hcv) hne
  | gt =>
    rw [hcv] at h
    exact Bool.noConfusion h

/-- C7 counterexample: two parsable entries with equal keys
(`"1.21"` ≡ `"1.21.0"`).  Stable sorting leaves both orders unchanged, so
toggling `ascending` does *not* reverse the order of the parsable
entries. -/
theorem claim_C7_counterexample :
    (parse_semver "1.21").isSome = true ∧
    (parse_semver "1.21.0").isSome = true ∧
    parse_semver "1.21" = parse_semver "1.21.0" ∧
    sort_versions true [⟨"1.21", "stable"⟩, ⟨"1.21.0", "stable"⟩] =
      [⟨"1.21", "stable"⟩, ⟨"1.21.0", "stable"⟩] ∧
    sort_versions false [⟨"1.21", "stable"⟩, ⟨"1.21.0", "stable"⟩] =
      [⟨"1.21", "stable"⟩, ⟨"1.21.0", "stable"⟩] ∧
    sort_versions false [⟨"1.21", "stable"⟩, ⟨"1.21.0", "stable"⟩] ≠
      (sort_versions true [⟨"1.21", "stable"⟩, ⟨"1.21.0", "stable"⟩]).reverse := by
  refine ⟨by decide, by decide, by decide, by decide, by decide, by decide⟩

/-- C7 (amended): sorting is idempotent; it is stable for entries with
equal parse keys (a key-equal pair in order stays a sublist of the sorted
list); and toggling `ascending` exactly reverses the order of the parsable
entries *provided their keys are pairwise distinct* (with equal keys,
stability keeps the original order in both directions). -/
theorem claim_C7 :
    (∀ (ascending : Bool) (l : List VersionInfo),
      sort_versions ascending (sort_versions ascending l) =
        sort_versions ascending l) ∧
    (∀ (ascending : Bool) (a b : VersionInfo) (l : List VersionInfo),
      parse_semver a.ver = parse_semver b.ver → List.Sublist [a, b] l →
      List.Sublist [a, b] (sort_versions ascending l)) ∧
    (∀ l : List VersionInfo,
      (l.filter (fun v => (parse_semver v.ver).isSome)).Pairwise
        (fun a b => parse_semver a.ver ≠ parse_semver b.ver) →
      (sort_versions false l).filter (fun v => (parse_semver v.ver).isSome) =
        ((sort_versions true l).filter
          (fun v => (parse_semver v.ver).isSome)).reverse) := by
  refine ⟨?_, ?_, ?_⟩
  · intro ascending l
    haveI : IsTotal VersionInfo (leVI ascending) := ⟨leVI_total ascending⟩
    haveI : IsTrans VersionInfo (leVI ascending) := ⟨leVI_trans ascending⟩
    exact List.Sorted.insertionSort_eq
      (List.sorted_insertionSort (leVI ascending) l)
  · intro ascending a b l hkey hsub
    exact List.pair_sublist_insertionSort (leVI_of_key_eq ascending a b hkey) hsub
  · intro l hdist
    have hsymm : ∀ {x y : VersionInfo},
        parse_semver x.ver ≠ parse_semver y.ver →
        parse_semver y.ver ≠ parse_semver x.ver := fun h => h.symm
    haveI hTf : IsTotal VersionInfo (leVI false) := ⟨leVI_total false⟩
    haveI : IsTrans VersionInfo (leVI false) := ⟨leVI_trans false⟩
    haveI : IsTotal VersionInfo (leVI true) := ⟨leVI_total true⟩
    haveI : IsTrans VersionInfo (leVI true) := ⟨leVI_trans true⟩
    haveI hanti : IsAntisymm VersionInfo (fun a b =>
        optCmp Semver.cmp (parse_semver a.ver) (parse_semver b.ver) = .gt) := by
      refine ⟨fun a b h1 h2 => ?_⟩
      have := (optSemverCmp_lawful.gt_iff _ _).1 h1
      rw [this] at h2
      exact Ordering.noConfusion h2
    have hpermA : List.Perm ((sort_versions false l).filter
        (fun v => (parse_semver v.ver).isSome))
        (l.filter (fun v => (parse_semver v.ver).isSome)) :=
      (List.perm_insertionSort (leVI false) l).filter _
    have hpermB : List.Perm ((sort_versions true l).filter
        (fun v => (parse_semver v.ver).isSome))
        (l.filter (fun v => (parse_semver v.ver).isSome)) :=
      (List.perm_insertionSort (leVI true) l).filter _
    have hdistA : ((sort_versions false l).filter
        (fun v => (parse_semver v.ver).isSome)).Pairwise
        (fun a b => parse_semver a.ver ≠ parse_semver b.ver) :=
      (hpermA.pairwise_iff hsymm).2 hdist
    have hdistB : ((sort_versions true l).filter
        (fun v => (parse_semver v.ver).isSome)).Pairwise
        (fun a b => parse_semver a.ver ≠ parse_semver b.ver) :=
      (hpermB.pairwise_iff hsymm).2 hdist
    have hsortA : ((sort_versions false l).filter
        (fun v => (parse_semver v.ver).isSome)).Pairwise (leVI false) :=
      (List.sorted_insertionSort (leVI false) l).filter _
    have hsortB : ((sort_versions true l).filter
        (fun v => (parse_semver v.ver).isSome)).Pairwise (leVI true) :=
      (List.sorted_insertionSort (leVI true) l).filter _
    have hstrictA : ((sort_versions false l).filter
        (fun v => (parse_semver v.ver).isSome)).Pairwise
        (fun a b => optCmp Semver.cmp (parse_semver a.ver) (parse_semver b.ver) = .gt) :=
      hsortA.imp₂ (fun a b h hne => leVI_false_ne_gt a b h hne) hdistA
    have hstrictB : (((sort_versions true l).filter
        (fun v => (parse_semver v.ver).isSome)).reverse).Pairwise
        (fun a b => optCmp Semver.cmp (parse_semver a.ver) (parse_semver b.ver) = .gt) := by
      rw [List.pairwise_reverse]
      exact hsortB.imp₂ (fun a b h hne =>
        (optSemverCmp_lawful.gt_iff _ _).2 (leVI_true_ne_lt a b h hne)) hdistB
    have hperm : List.Perm ((sort_versions false l).filter
        (fun v => (parse_semver v.ver).isSome))
        (((sort_versions true l).filter
          (fun v => (parse_semver v.ver).isSome)).reverse) :=
      hpermA.trans (hpermB.symm.trans (List.reverse_perm _).symm)
    exact List.eq_of_perm_of_sorted hperm hstrictA hstrictB

/-- Witness for C7's stability and toggling conjuncts at concrete lists. -/
theorem claim_C7_witness :
    List.Sublist [(⟨"1.21", "stable"⟩ : VersionInfo), ⟨"1.21.0", "stable"⟩]
      (sort_versions true [⟨"1.21", "stable"⟩, ⟨"1.21.0", "stable"⟩]) ∧
    (sort_versions false [⟨"1.2.0", "s"⟩, ⟨"abc", "x"⟩, ⟨"1.0.0", "s"⟩]).filter
        (fun v => (parse_semver v.ver).isSome) =
      ((sort_versions true [⟨"1.2.0", "s"⟩, ⟨"abc", "x"⟩, ⟨"1.0.0", "s"⟩]).filter
        (fun v => (parse_semver v.ver).isSome)).reverse :=
  ⟨claim_C7.2.1 true ⟨"1.21", "stable"⟩ ⟨"1.21.0", "stable"⟩
      [⟨"1.21", "stable"⟩, ⟨"1.21.0", "stable"⟩] (by decide) (List.Sublist.refl _),
   claim_C7.2.2 [⟨"1.2.0", "s"⟩, ⟨"abc", "x"⟩, ⟨"1.0.0", "s"⟩] (by decide)⟩

/-! ## Claim C6 — parse_semver -/

/-- A component that is empty or contains a non-digit is not a strict
numeric identifier. -/
theorem parseNumeric_none_of_bad (x : List Char)
    (h : x = [] ∨ ∃ ch ∈ x, ch.isDigit = false) :
    Semver.parseNumeric x = none := by
  rcases h with rfl | ⟨ch, hmem, hnd⟩
  · rfl
  · have hall : x.all Char.isDigit = false := by
      rw [List.all_eq_false]
      exact ⟨ch, hmem, by simp [hnd]⟩
    simp [Semver.parseNumeric, Semver.isStrictNumeric, hall]

/-- If any component of the dot-split core handed to the strict semver
parser fails numeric parsing, the whole parse fails. -/
theorem semver_parse_none_of_bad_comp (l : List Char) (x : List Char)
    (hx : x ∈ splitOnChar '.' (splitFirst '-' (splitFirst '+' l).1).1)
    (hbad : Semver.parseNumeric x = none) : Semver.parse l = none := by
  simp only [Semver.parse]
  revert hx
  generalize splitOnChar '.' (splitFirst '-' (splitFirst '+' l).1).1 = comps
  intro hx
  rcases comps with _ | ⟨a, _ | ⟨b, _ | ⟨c, _ | ⟨d, t⟩⟩⟩⟩
  · rfl
  · rfl
  · rfl
  · rcases List.mem_cons.1 hx with rfl | hx2
    · simp only [hbad]
    · rcases List.mem_cons.1 hx2 with rfl | hx3
      · cases hpa : Semver.parseNumeric a <;> simp only [hpa, hbad]
      · rcases List.mem_singleton.1 hx3 with rfl
        cases hpa : Semver.parseNumeric a <;>
          cases hpb : Semver.parseNumeric b <;>
            simp only [hpa, hpb, hbad]
  · rfl

/-- C6 core lemma: `parse_semver` returns `None` whenever some component
of the dot-split core (the part of the raw string before the first `-`)
is non-numeric — empty or containing a non-digit — for raw strings
without `+` (build metadata is not part of the launcher's inputs). -/
theorem parse_semver_none_of_bad_core (raw : String) (x : List Char)
    (hplus : '+' ∉ raw.data)
    (hxmem : x ∈ splitOnChar '.' ((splitOnChar '-' raw.data).headD []))
    (hbad : x = [] ∨ ∃ ch ∈ x, ch.isDigit = false) :
    parse_semver raw = none := by
  have hbadn : Semver.parseNumeric x = none := parseNumeric_none_of_bad x hbad
  rcases hparts : splitOnChar '-' raw.data with _ | ⟨p0, prest⟩
  · exact absurd hparts (splitOnChar_ne_nil _ _)
  rw [hparts] at hxmem
  simp only [List.headD_cons] at hxmem
  have hp0 : p0 ∈ splitOnChar '-' raw.data := by
    rw [hparts]; exact List.mem_cons_self _ _
  have hminus_p0 : '-' ∉ p0 := not_mem_of_mem_splitOnChar hp0
  have hsub_p0 : ∀ ch ∈ p0, ch ∈ raw.data := fun ch hch =>
    mem_of_mem_splitOnChar hp0 hch
  have hxmem2 : x ∈ splitOnChar '.' p0 ++
      List.replicate (3 - (splitOnChar '.' p0).length) ['0'] :=
    List.mem_append_left _ hxmem
  have hcomp_chars : ∀ comp ∈ splitOnChar '.' p0 ++
      List.replicate (3 - (splitOnChar '.' p0).length) ['0'],
      ∀ ch ∈ comp, ch = '0' ∨ ch ∈ p0 := by
    intro comp hcomp ch hch
    rcases List.mem_append.1 hcomp with hc | hc
    · exact Or.inr (mem_of_mem_splitOnChar hc hch)
    · rw [List.eq_of_mem_replicate hc] at hch
      exact Or.inl (List.mem_singleton.1 hch)
  have hdot : ∀ comp ∈ splitOnChar '.' p0 ++
      List.replicate (3 - (splitOnChar '.' p0).length) ['0'], '.' ∉ comp := by
    intro comp hcomp hch
    rcases List.mem_append.1 hcomp with hc | hc
    · exact not_mem_of_mem_splitOnChar hc hch
    · rw [List.eq_of_mem_replicate hc] at hch
      exact absurd (List.mem_singleton.1 hch) (by decide)
  have hne2 : splitOnChar '.' p0 ++
      List.replicate (3 - (splitOnChar '.' p0).length) ['0'] ≠ [] := by
    intro habs
    exact splitOnChar_ne_nil '.' p0 (List.append_eq_nil.1 habs).1
  have hsplitfix : splitOnChar '.' (joinSep '.' (splitOnChar '.' p0 ++
      List.replicate (3 - (splitOnChar '.' p0).length) ['0'])) =
      splitOnChar '.' p0 ++
      List.replicate (3 - (splitOnChar '.' p0).length) ['0'] :=
    splitOnChar_joinSep hne2 hdot
  have hfixchars : ∀ ch ∈ joinSep '.' (splitOnChar '.' p0 ++
      List.replicate (3 - (splitOnChar '.' p0).length) ['0']),
      ch = '.' ∨ ch = '0' ∨ ch ∈ p0 := by
    intro ch hch
    rcases mem_joinSep hch with rfl | ⟨comp, hcomp, hc⟩
    · exact Or.inl rfl
    · rcases hcomp_chars comp hcomp ch hc with h | h
      · exact Or.inr (Or.inl h)
      · exact Or.inr (Or.inr h)
  have hminus_fix : '-' ∉ joinSep '.' (splitOnChar '.' p0 ++
      List.replicate (3 - (splitOnChar '.' p0).length) ['0']) := by
    intro hm
    rcases hfixchars _ hm with h | h | h
    · exact absurd h (by decide)
    · exact absurd h (by decide)
    · exact hminus_p0 h
  have hplus_fix : '+' ∉ joinSep '.' (splitOnChar '.' p0 ++
      List.replicate (3 - (splitOnChar '.' p0).length) ['0']) := by
    intro hm
    rcases hfixchars _ hm with h | h | h
    · exact absurd h (by decide)
    · exact absurd h (by decide)
    · exact hplus (hsub_p0 _ h)
  simp only [parse_semver, hparts, List.headD_cons]
  cases prest with
  | nil =>
    apply semver_parse_none_of_bad_comp _ x _ hbadn
    simp only [splitFirst_of_not_mem hplus_fix, splitFirst_of_not_mem hminus_fix,
      hsplitfix]
    exact hxmem2
  | cons p1 pr =>
    have hp1 : p1 ∈ splitOnChar '-' raw.data := by
      rw [hparts]
      exact List.mem_cons_of_mem _ (List.mem_cons_self _ _)
    have hplus_p1 : '+' ∉ p1 := fun hm => hplus (mem_of_mem_splitOnChar hp1 hm)
    have hplus_arg : '+' ∉ joinSep '.' (splitOnChar '.' p0 ++
        List.replicate (3 - (splitOnChar '.' p0).length) ['0']) ++ '-' :: p1 := by
      intro hm
      rcases List.mem_append.1 hm with hm | hm
      · exact hplus_fix hm
      · rcases List.mem_cons.1 hm with h | hm
        · exact absurd h (by decide)
        · exact hplus_p1 hm
    apply semver_parse_none_of_bad_comp _ x _ hbadn
    simp only [splitFirst_of_not_mem hplus_arg,
      splitFirst_append_cons p1 hminus_fix, hsplitfix]
    exact hxmem2

/-- C6 counterexample: on `"1.0.0-a-b"` the source splits on *every* `-`
and keeps only the first segment after the core, yielding pre-release
`a`; splitting on the *first* `-` (as the claim states) would yield
pre-release `a-b`.  The two disagree. -/
theorem claim_C6_counterexample :
    parse_semver "1.0.0-a-b" = some ⟨1, 0, 0, [['a']], []⟩ ∧
    parse_semverSpecSplit "1.0.0-a-b" = some ⟨1, 0, 0, [['a', '-', 'b']], []⟩ ∧
    parse_semver "1.0.0-a-b" ≠ parse_semverSpecSplit "1.0.0-a-b" := by
  refine ⟨by decide, by decide, by decide⟩

/-- C6 (amended): `parse_semver` splits the raw version string on *every*
`-`, takes the first segment as the core and re-joins only the *second*
segment as the pre-release (any later segments are dropped), pads the core
to three dot-separated numeric components defaulting to 0, and delegates
to strict semantic-version parsing; it returns `None` on any non-numeric
core component (shown here for inputs without `+`), and
`parse_semver "1.21"` equals `parse_semver "1.21.0"`. -/
theorem claim_C6 :
    (∀ (raw : String) (x : List Char), '+' ∉ raw.data →
      x ∈ splitOnChar '.' ((splitOnChar '-' raw.data).headD []) →
      (x = [] ∨ ∃ ch ∈ x, ch.isDigit = false) →
      parse_semver raw = none) ∧
    (parse_semver "1.21" = parse_semver "1.21.0" ∧
      (parse_semver "1.21").isSome = true) ∧
    parse_semver "1.0.0-a-b" = some ⟨1, 0, 0, [['a']], []⟩ :=
  ⟨parse_semver_none_of_bad_core, ⟨by decide, by decide⟩, by decide⟩

/-- Witness for C6 at the concrete input `"1.x.0"` (non-numeric middle
component). -/
theorem claim_C6_witness :
    parse_semver "1.x.0" = none :=
  claim_C6.1 "1.x.0" ['x'] (by decide) (by decide)
    (Or.inr ⟨'x', by decide, by decide⟩)
